import Mathlib

/-!
Verification of the reformat core of `cmd/acmefmt` (file `main.go`).

Text buffers are modelled as `List Nat`, one entry per text unit
(byte / rune), with `10` the newline.  Pure helpers (`findLines`,
`parseSpan`) are embedded directly from the Go source; Go `int`
decrements wrap in 64-bit two's complement, modelled by an explicit
reduction into `[-2^63, 2^63 - 1]`.  The editor's line-addressed write
interface and the external line differ are collaborators, modelled from
the specification.
-/

set_option autoImplicit false

namespace Acmefmt

/-- Reduction of an integer into Go's 64-bit two's-complement `int`
range `[-2^63, 2^63 - 1]`: Go's `--` on an `int` wraps, so every
decrement in `findLines` is modelled through this. -/
def wrap64 (n : Int) : Int :=
  (n + 2 ^ 63) % 2 ^ 64 - 2 ^ 63

/-- First loop of Go `findLines`: skip bytes while `start > 0` bytes of
`text` remain, decrementing `start` and `end` (with `int` wrap-around) at
each newline; returns the remaining text and the adjusted `end`. -/
def fl1 : List Nat → Int → Int → List Nat × Int
  | [], _, e => ([], e)
  | b :: t, s, e =>
    if s ≤ 0 then (b :: t, e)
    else if b = 10 then fl1 t (wrap64 (s - 1)) (wrap64 (e - 1))
    else fl1 t s e

/-- Second loop of Go `findLines`: collect bytes while `end > 0`,
decrementing `end` (with `int` wrap-around) at each newline. -/
def fl2 : List Nat → Int → List Nat
  | [], _ => []
  | b :: t, e =>
    if e ≤ 0 then []
    else b :: fl2 t (if b = 10 then wrap64 (e - 1) else e)

/-- Go `findLines(text, start, end)` (main.go:210-228): the bytes of
1-based lines `start..end` of `text`, inclusive of `end`'s newline.  The
initial `start--` also wraps at `-2^63`. -/
def findLines (text : List Nat) (start end_ : Int) : List Nat :=
  let p := fl1 text (wrap64 (start - 1)) end_
  fl2 p.1 p.2

/-- Split a buffer at the first `k` newlines: returns the bytes up to and
including the `k`-th newline (all of the buffer when it has fewer
newlines), and the rest. -/
def breakLines : List Nat → Nat → List Nat × List Nat
  | t, 0 => ([], t)
  | [], _ + 1 => ([], [])
  | b :: t, k + 1 =>
    let p := breakLines t (if b = 10 then k else k + 1)
    (b :: p.1, p.2)

/-- Split a buffer into lines, each line keeping its trailing newline;
the final line may lack one. -/
def splitLines : List Nat → List (List Nat)
  | [] => []
  | b :: t =>
    if b = 10 then [b] :: splitLines t
    else
      match splitLines t with
      | [] => [[b]]
      | l :: ls => (b :: l) :: ls

/-- Decimal digit run accumulator for the model of Go `strconv.Atoi`. -/
def digitsAux : Nat → List Char → Option Nat
  | acc, [] => some acc
  | acc, c :: r =>
    if 48 ≤ c.toNat ∧ c.toNat ≤ 57 then digitsAux (acc * 10 + (c.toNat - 48)) r
    else none

/-- A nonempty all-digit string's value, else `none`. -/
def digits? : List Char → Option Nat
  | [] => none
  | cs => digitsAux 0 cs

/-- Model of Go `strconv.Atoi` (base 10, 64-bit): optional sign, then a
nonempty digit run; range errors (beyond int64) are errors. -/
def atoi : List Char → Option Int
  | [] => none
  | '-' :: rest =>
    match digits? rest with
    | some v => if v ≤ 2 ^ 63 then some (-(v : Int)) else none
    | none => none
  | '+' :: rest =>
    match digits? rest with
    | some v => if v ≤ 2 ^ 63 - 1 then some (v : Int) else none
    | none => none
  | cs =>
    match digits? cs with
    | some v => if v ≤ 2 ^ 63 - 1 then some (v : Int) else none
    | none => none

/-- Go `parseSpan` (main.go:191-208): `"N"` parses to `(N, N)`, `"A,B"`
to `(A, B)`, anything else to `(0, 0)`. -/
def parseSpan (text : List Char) : Int × Int :=
  match text.findIdx? (fun c => c = ',') with
  | none =>
    match atoi text with
    | none => (0, 0)
    | some n => (n, n)
  | some i =>
    match atoi (text.take i), atoi (text.drop (i + 1)) with
    | some s, some e => (s, e)
    | _, _ => (0, 0)

/-- The two `log.Printf("cannot parse span %q", text)` sites of
`parseSpan` (main.go:196, 204): a log line is emitted exactly when `Atoi`
fails on the whole text (no comma) or on either side of the first
comma. -/
def parseSpanLogs (text : List Char) : Bool :=
  match text.findIdx? (fun c => c = ',') with
  | none => (atoi text).isNone
  | some i => (atoi (text.take i)).isNone || (atoi (text.drop (i + 1))).isNone

/-- The scan `for j < len(line) && line[j] != 'a' && ... ` of the reformat
loop: index and identity of the first `a`/`c`/`d` in the line, if any. -/
def findHunkKind : List Char → Option (Nat × Char)
  | [] => none
  | c :: t =>
    if c = 'a' ∨ c = 'c' ∨ c = 'd' then some (0, c)
    else (findHunkKind t).map (fun p => (p.1 + 1, p.2))

/-- One edit operation handed to the editor: an insertion at the
zero-width point after a 1-based line, or a replacement of an inclusive
1-based line range (`w.Addr` + `w.Write("data", ...)` in the source). -/
inductive Op
  | ins (afterLine : Int) (data : List Nat)
  | rep (first last : Int) (data : List Nat)
  deriving DecidableEq, Repr

/-- Old-document start address of an operation. -/
def opStart : Op → Int
  | .ins n _ => n
  | .rep s _ _ => s

/-- Modelled from the spec (§6 Document Sink): the editor applies one
line-addressed operation to a buffer.  `ins n` writes at the zero-width
point after line `n`; `rep s e` replaces lines `s..e` inclusive. -/
def applyOp (doc : List Nat) : Op → List Nat
  | .ins n data => (breakLines doc n.toNat).1 ++ data ++ (breakLines doc n.toNat).2
  | .rep s e data => (breakLines doc (s - 1).toNat).1 ++ data ++ (breakLines doc e.toNat).2

/-- Apply operations in the order given (the program emits them in its
application order). -/
def applyOps (doc : List Nat) (ops : List Op) : List Nat :=
  ops.foldl applyOp doc

/-- The reformat loop of main.go:143-188 over diff output lines, already
reversed into application order: skip empty and `<`/`-`/`>` content
lines, abort on a line with no `a`/`c`/`d`, skip hunks whose parsed spans
have `oldStart = 0` or `newStart = 0`, otherwise emit the operation. -/
def planLoop (new : List Nat) : List (List Char) → List Op
  | [] => []
  | line :: rest =>
    match line with
    | [] => planLoop new rest
    | c :: _ =>
      if c = '<' ∨ c = '-' ∨ c = '>' then planLoop new rest
      else
        match findHunkKind line with
        | none => []
        | some jk =>
          let s1 := parseSpan (line.take jk.1)
          let s2 := parseSpan (line.drop (jk.1 + 1))
          if s1.1 = 0 ∨ s2.1 = 0 then planLoop new rest
          else
            (match jk.2 with
             | 'a' => Op.ins s1.1 (findLines new s2.1 s2.2)
             | 'c' => Op.rep s1.1 s1.2 (findLines new s2.1 s2.2)
             | _ => Op.rep s1.1 s1.2 []) :: planLoop new rest

/-- Operations of one diff, in the order the program applies them: the
diff's lines are processed from the last to the first. -/
def planOps (new : List Nat) (diffLines : List (List Char)) : List Op :=
  planLoop new diffLines.reverse

/-- The command letter of a parsed diff hunk header. -/
inductive HKind
  | a
  | c
  | d
  deriving DecidableEq, Repr

/-- A parsed diff hunk header, as the loop sees it after `parseSpan`:
`os,oe` the old span, `ns,ne` the new span (for `d` hunks the diff
format carries a single new address, so `ns = ne`). -/
structure Hunk where
  kind : HKind
  os : Nat
  oe : Nat
  ns : Nat
  ne : Nat
  deriving DecidableEq, Repr

/-- The operation the loop's `switch line[j]` emits for one hunk:
`a` writes the extracted new lines after old line `os`, `c` writes them
over old lines `os..oe`, `d` writes empty data over `os..oe`. -/
def toOp (new : List Nat) (h : Hunk) : Op :=
  match h.kind with
  | .a => .ins h.os (findLines new h.ns h.ne)
  | .c => .rep h.os h.oe (findLines new h.ns h.ne)
  | .d => .rep h.os h.oe []

/-- Operations of a structured hunk list, in application order: hunks with
`oldStart = 0` or `newStart = 0` are skipped (main.go:160-164), the rest
are emitted in reverse hunk order. -/
def hunkOps (new : List Nat) (hs : List Hunk) : List Op :=
  ((hs.filter fun h => !(h.os == 0 || h.ns == 0)).map (toOp new)).reverse

/-- Modelled from the spec (§4.2): `hs` is a correct line diff of `oldL`
against `newL` from cursors `i, j` (0-based counts of already-aligned
lines).  Each hunk copies the common run up to its old span (the copied
old and new lines must be equal), consumes its spans, and moves both
cursors; consecutive hunks are separated by at least one common line (the
`i < os` / `i + 1 < os` disjunct, waived only at the very start); after
the last hunk the remaining lines agree. -/
def validFrom (oldL newL : List (List Nat)) : Nat → Nat → List Hunk → Bool
  | i, j, [] => decide (oldL.drop i = newL.drop j)
  | i, j, h :: hs =>
    match h.kind with
    | .a =>
      decide (i ≤ h.os ∧ h.os ≤ oldL.length ∧ h.ns ≤ h.ne ∧ h.ne ≤ newL.length ∧
        h.ns = j + (h.os - i) + 1 ∧ (i < h.os ∨ (i = 0 ∧ j = 0)) ∧
        (oldL.drop i).take (h.os - i) = (newL.drop j).take (h.os - i)) &&
      validFrom oldL newL h.os h.ne hs
    | .c =>
      decide (i < h.os ∧ h.os ≤ h.oe ∧ h.oe ≤ oldL.length ∧ h.ns ≤ h.ne ∧
        h.ne ≤ newL.length ∧ h.ns = j + (h.os - i) ∧
        (i + 1 < h.os ∨ (i = 0 ∧ j = 0)) ∧
        (oldL.drop i).take (h.os - i - 1) = (newL.drop j).take (h.os - i - 1)) &&
      validFrom oldL newL h.oe h.ne hs
    | .d =>
      decide (i < h.os ∧ h.os ≤ h.oe ∧ h.oe ≤ oldL.length ∧
        h.ns + 1 = j + (h.os - i) ∧ h.ns ≤ newL.length ∧ h.ns = h.ne ∧
        (i + 1 < h.os ∨ (i = 0 ∧ j = 0)) ∧
        (oldL.drop i).take (h.os - i - 1) = (newL.drop j).take (h.os - i - 1)) &&
      validFrom oldL newL h.oe h.ns hs

/-- `hs` is a correct line diff of buffer `old` against buffer `new`. -/
def validDiff (old new : List Nat) (hs : List Hunk) : Bool :=
  validFrom (splitLines old) (splitLines new) 0 0 hs

/-- Lines of the top region: everything up to and including the first
blank line. -/
def takeThroughBlank : List (List Nat) → List (List Nat)
  | [] => []
  | l :: ls => if l = [10] then [l] else l :: takeThroughBlank ls

/-- Modelled from the spec: `readImports` (called by main.go:98-106 but
not itself under src/) extracts the leading region of a buffer by a fixed
delimiter rule; per §4.4 and §8 scenario 5 this is the region up to and
including the first blank line (the whole buffer when none exists). -/
def readImports (x : List Nat) : List Nat :=
  (takeThroughBlank (splitLines x)).flatten

/-- Outcome of one reformat cycle, as far as edits are concerned:
nothing, an abandoned (logged) stale batch, the single top-region
replacement of the `!*dofmt` branch, or the diff-derived operations. -/
inductive RAction
  | idle
  | skipStale
  | region (tgtLen : Nat) (data : List Nat)
  | diffOps (ops : List Op)
  deriving DecidableEq, Repr

/-- The decision structure of `reformat` (main.go:69-188) after the
collaborators have produced `old` (file content), `new` (formatter
output), `latest` (live window body) and the diff's lines: identical
`old`/`new` is a silent no-op; with `dofmt` unset the top regions are
compared and at most one replacement of bytes `[0, |oldTop|)` is issued,
without consulting `latest`; with `dofmt` set the live body is compared
against `old` and the whole batch is abandoned on mismatch. -/
def reformat (dofmt : Bool) (old new latest : List Nat)
    (diffLines : List (List Char)) : RAction :=
  if old = new then .idle
  else if dofmt = false then
    let oldTop := readImports old
    let newTop := readImports new
    if oldTop = newTop then .idle
    else .region oldTop.length newTop
  else if latest ≠ old then .skipStale
  else .diffOps (planOps new diffLines)

/-- How many edit operations a reformat outcome writes to the window. -/
def appliedEdits : RAction → Nat
  | .idle => 0
  | .skipStale => 0
  | .region _ _ => 1
  | .diffOps ops => ops.length

/-- Byte offset of the start of 1-based line `k` of a buffer. -/
def lineOff (x : List Nat) (k : Int) : Nat :=
  ((breakLines x (k - 1).toNat).1).length

/-- A newline-terminated line: one `10`, at the end. -/
def Proper (l : List Nat) : Prop :=
  ∃ m, 10 ∉ m ∧ l = m ++ [10]

/-- A nonempty final line without a newline. -/
def OpenLine (l : List Nat) : Prop :=
  l ≠ [] ∧ 10 ∉ l

theorem flatten_splitLines (x : List Nat) : (splitLines x).flatten = x := by
  induction x with
  | nil => rfl
  | cons b t ih =>
    by_cases hb : b = 10
    · simp [splitLines, hb] at ih ⊢
      exact ih
    · simp only [splitLines, hb, if_false]
      cases h : splitLines t with
      | nil => simp [h] at ih; simp [ih]
      | cons l ls => rw [h] at ih; simpa using congrArg (b :: ·) ih

theorem splitLines_cons_eq (b : Nat) (t : List Nat) :
    splitLines (b :: t) =
      if b = 10 then [b] :: splitLines t
      else
        match splitLines t with
        | [] => [[b]]
        | l :: ls => (b :: l) :: ls := rfl

theorem not_mem_cons_of_ne_of_not_mem {b : Nat} {u : List Nat} (h1 : b ≠ 10)
    (h2 : 10 ∉ u) : 10 ∉ b :: u := by
  intro h
  rcases List.mem_cons.mp h with h3 | h3
  · exact h1 h3.symm
  · exact h2 h3

theorem splitLines_dropLast_proper (x : List Nat) :
    ∀ l ∈ (splitLines x).dropLast, Proper l := by
  induction x with
  | nil => intro l hl; simp [splitLines] at hl
  | cons b t ih =>
    intro l hl
    rw [splitLines_cons_eq] at hl
    by_cases hb : b = 10
    · rw [if_pos hb] at hl
      cases h : splitLines t with
      | nil => rw [h] at hl; simp at hl
      | cons m ms =>
        rw [h, List.dropLast_cons_of_ne_nil (by simp)] at hl
        rcases List.mem_cons.mp hl with h1 | h1
        · exact h1 ▸ ⟨[], by simp, by simp [hb]⟩
        · exact ih l (h ▸ h1)
    · rw [if_neg hb] at hl
      cases h : splitLines t with
      | nil => rw [h] at hl; simp at hl
      | cons m ms =>
        rw [h] at hl
        cases ms with
        | nil => simp at hl
        | cons m2 ms2 =>
          rw [List.dropLast_cons_of_ne_nil (by simp)] at hl
          rcases List.mem_cons.mp hl with h1 | h1
          · have hm : Proper m := by
              apply ih
              rw [h, List.dropLast_cons_of_ne_nil (by simp)]
              exact List.mem_cons_self _ _
            obtain ⟨u, hu, hu2⟩ := hm
            exact h1 ▸ ⟨b :: u, not_mem_cons_of_ne_of_not_mem hb hu, by simp [hu2]⟩
          · apply ih
            rw [h, List.dropLast_cons_of_ne_nil (by simp)]
            exact List.mem_cons_of_mem _ h1

theorem splitLines_mem (x : List Nat) :
    ∀ l ∈ splitLines x, Proper l ∨ OpenLine l := by
  induction x with
  | nil => intro l hl; simp [splitLines] at hl
  | cons b t ih =>
    intro l hl
    rw [splitLines_cons_eq] at hl
    by_cases hb : b = 10
    · rw [if_pos hb] at hl
      rcases List.mem_cons.mp hl with h1 | h1
      · exact Or.inl (h1 ▸ ⟨[], by simp, by simp [hb]⟩)
      · exact ih l h1
    · rw [if_neg hb] at hl
      cases h : splitLines t with
      | nil =>
        rw [h] at hl
        rcases List.mem_cons.mp hl with h1 | h1
        · refine Or.inr (h1 ▸ ⟨by simp, ?_⟩)
          exact not_mem_cons_of_ne_of_not_mem hb (by simp)
        · simp at h1
      | cons m ms =>
        rw [h] at hl
        rcases List.mem_cons.mp hl with h1 | h1
        · rcases ih m (h ▸ List.mem_cons_self _ _) with h2 | h2
          · obtain ⟨u, hu, hu2⟩ := h2
            exact Or.inl (h1 ▸ ⟨b :: u, not_mem_cons_of_ne_of_not_mem hb hu, by simp [hu2]⟩)
          · exact Or.inr (h1 ▸ ⟨by simp, not_mem_cons_of_ne_of_not_mem hb h2.2⟩)
        · exact ih l (h ▸ List.mem_cons_of_mem _ h1)

theorem breakLines_peel {m : List Nat} (hm : 10 ∉ m) (r : List Nat) (k : Nat) :
    breakLines (m ++ 10 :: r) (k + 1) =
      (m ++ 10 :: (breakLines r k).1, (breakLines r k).2) := by
  induction m with
  | nil => simp [breakLines]
  | cons b m ih =>
    have hb : ¬b = 10 := fun h => hm (h ▸ List.mem_cons_self _ _)
    have hm2 : 10 ∉ m := fun h => hm (List.mem_cons_of_mem _ h)
    simp only [List.cons_append, breakLines, if_neg hb, List.append_eq]
    rw [ih hm2]

theorem Proper.count_eq_one {l : List Nat} (h : Proper l) : l.count 10 = 1 := by
  obtain ⟨m, hm, rfl⟩ := h
  simp [List.count_append, List.count_eq_zero.mpr hm]

theorem OpenLine.count_eq_zero {l : List Nat} (h : OpenLine l) : l.count 10 = 0 :=
  List.count_eq_zero.mpr h.2

theorem count_flatten_proper {P : List (List Nat)} (hP : ∀ l ∈ P, Proper l) :
    P.flatten.count 10 = P.length := by
  induction P with
  | nil => rfl
  | cons l P ih =>
    have h1 := (hP l (List.mem_cons_self _ _)).count_eq_one
    have h2 := ih fun x hx => hP x (List.mem_cons_of_mem _ hx)
    simp [List.count_append, h1, h2, Nat.add_comm]

theorem count_flatten_open_last {M : List (List Nat)}
    (hdp : ∀ l ∈ M.dropLast, Proper l)
    (hlast : ∀ l, M.getLast? = some l → OpenLine l) :
    M.flatten.count 10 = M.length - 1 := by
  induction M with
  | nil => rfl
  | cons l M ih =>
    cases M with
    | nil =>
      have := (hlast l rfl).count_eq_zero
      simpa using this
    | cons l2 M2 =>
      have hl : Proper l := hdp l (by
        rw [List.dropLast_cons_of_ne_nil (by simp)]
        exact List.mem_cons_self _ _)
      have ih2 := ih
        (fun x hx => hdp x (by
          rw [List.dropLast_cons_of_ne_nil (by simp)]
          exact List.mem_cons_of_mem _ hx))
        (fun x hx => hlast x (by rw [List.getLast?_cons_cons]; exact hx))
      have h1 := hl.count_eq_one
      simp only [List.flatten_cons, List.count_append, List.length_cons] at ih2 ⊢
      omega

theorem breakLines_exhaust (x : List Nat) (k : Nat) (h : x.count 10 < k) :
    breakLines x k = (x, []) := by
  induction x generalizing k with
  | nil =>
    cases k with
    | zero => simp at h
    | succ k => rfl
  | cons b t ih =>
    cases k with
    | zero => simp at h
    | succ k =>
      by_cases hb : b = 10
      · have hc : t.count 10 < k := by
          subst hb
          simpa [List.count_cons] using h
        simp [breakLines, hb, ih k hc]
      · have hc : t.count 10 < k + 1 := by
          simpa [List.count_cons, hb] using h
        simp [breakLines, hb, ih (k + 1) hc]

theorem breakLines_append_eq (x : List Nat) (k : Nat) :
    (breakLines x k).1 ++ (breakLines x k).2 = x := by
  induction x generalizing k with
  | nil => cases k <;> rfl
  | cons b t ih =>
    cases k with
    | zero => rfl
    | succ k => simp [breakLines, ih]

theorem breakLines_add (x : List Nat) (a b : Nat) :
    breakLines x (a + b) =
      ((breakLines x a).1 ++ (breakLines (breakLines x a).2 b).1,
        (breakLines (breakLines x a).2 b).2) := by
  induction x generalizing a with
  | nil =>
    cases a with
    | zero => simp [breakLines]
    | succ a =>
      cases b with
      | zero => rfl
      | succ b => rfl
  | cons c t ih =>
    cases a with
    | zero => simp [breakLines]
    | succ a =>
      have hadd : a + 1 + b = (a + b) + 1 := by omega
      by_cases hc : c = 10
      · simp only [hadd, breakLines, if_pos hc, ih a]
        simp
      · have : a + b + 1 = (a + 1) + b := by omega
        simp only [hadd, breakLines, if_neg hc]
        rw [this, ih (a + 1)]
        simp [breakLines, if_neg hc]

theorem breakLines_flatten_take {M : List (List Nat)} {k : Nat}
    (hP : ∀ l ∈ M.take k, Proper l) (hk : k ≤ M.length) (B : List Nat) :
    breakLines (M.flatten ++ B) k =
      ((M.take k).flatten, (M.drop k).flatten ++ B) := by
  induction k generalizing M B with
  | zero => simp [breakLines]
  | succ k ih =>
    cases M with
    | nil => simp at hk
    | cons l M =>
      obtain ⟨m, hm, rfl⟩ := hP l (by simp)
      have hP2 : ∀ x ∈ M.take k, Proper x := fun x hx =>
        hP x (by simp [List.take_cons]; right; exact hx)
      have hk2 : k ≤ M.length := by simpa using hk
      have e1 : ((m ++ [10]) :: M).flatten ++ B = m ++ 10 :: (M.flatten ++ B) := by
        simp
      rw [e1, breakLines_peel hm, ih hP2 hk2]
      simp

theorem mem_dropLast_of_mem_take {L : List (List Nat)} {k : Nat}
    (hk : k + 1 ≤ L.length) : ∀ l ∈ L.take k, l ∈ L.dropLast := by
  intro l hl
  rw [List.dropLast_eq_take]
  have h1 : L.take k = (L.take (L.length - 1)).take k := by
    rw [List.take_take, min_eq_left (by omega)]
  exact List.take_subset _ _ (h1 ▸ hl)

theorem proper_of_all_of_last {L : List (List Nat)}
    (hdp : ∀ l ∈ L.dropLast, Proper l) (hne : L ≠ [])
    (hlast : Proper (L.getLast hne)) : ∀ l ∈ L, Proper l := by
  intro l hl
  rw [← List.dropLast_append_getLast hne] at hl
  rcases List.mem_append.mp hl with h1 | h1
  · exact hdp l h1
  · rw [List.mem_singleton.mp h1]
    exact hlast

theorem break_take_flatten {L : List (List Nat)}
    (hdp : ∀ l ∈ L.dropLast, Proper l)
    (hall : ∀ l ∈ L, Proper l ∨ OpenLine l)
    {i k : Nat} (B : List Nat) (hk : k ≤ i) (hi : i ≤ L.length)
    (hend : i = L.length → B = []) :
    breakLines ((L.take i).flatten ++ B) k =
      ((L.take k).flatten, ((L.drop k).take (i - k)).flatten ++ B) := by
  by_cases hkl : k < L.length
  · have hP : ∀ l ∈ (L.take i).take k, Proper l := by
      intro l hl
      rw [List.take_take, min_eq_left hk] at hl
      exact hdp l (mem_dropLast_of_mem_take (by omega) l hl)
    have hkk : k ≤ (L.take i).length := by
      rw [List.length_take]
      omega
    rw [breakLines_flatten_take hP hkk B, List.take_take, min_eq_left hk,
      List.drop_take]
  · have hkL : k = L.length := by omega
    have hiL : i = L.length := by omega
    have hB : B = [] := hend hiL
    subst hB hkL hiL
    rw [List.take_length, List.append_nil, List.drop_length, List.take_nil,
      List.flatten_nil, List.append_nil]
    cases hL : L with
    | nil => simp [breakLines]
    | cons hd tl =>
      rw [← hL]
      have hne : L ≠ [] := by rw [hL]; simp
      rcases hall (L.getLast hne) (List.getLast_mem hne) with hp | ho
      · have hPall := proper_of_all_of_last hdp hne hp
        have := breakLines_flatten_take (M := L) (k := L.length)
          (fun l hl => hPall l (List.take_subset _ _ hl)) le_rfl []
        rw [List.append_nil] at this
        rw [this, List.take_length, List.drop_length, List.flatten_nil]
        simp
      · have hcount : L.flatten.count 10 = L.length - 1 := by
          apply count_flatten_open_last hdp
          intro l hl
          rw [List.getLast?_eq_getLast L hne] at hl
          rw [← Option.some.inj hl]
          exact ho
        have hlen : 1 ≤ L.length := by rw [hL]; simp
        exact breakLines_exhaust _ _ (by omega)

theorem count_splitLines_ge (x : List Nat) :
    (splitLines x).length - 1 ≤ x.count 10 := by
  conv_rhs => rw [← flatten_splitLines x]
  cases hL : splitLines x with
  | nil => simp
  | cons hd tl =>
    rw [← hL]
    have hne : splitLines x ≠ [] := by rw [hL]; simp
    rcases splitLines_mem x _ (List.getLast_mem hne) with hp | ho
    · rw [count_flatten_proper
        (proper_of_all_of_last (splitLines_dropLast_proper x) hne hp)]
      omega
    · rw [count_flatten_open_last (splitLines_dropLast_proper x)
        (fun l hl => by
          rw [List.getLast?_eq_getLast _ hne] at hl
          rw [← Option.some.inj hl]
          exact ho)]

theorem breakLines_nil (k : Nat) : breakLines ([] : List Nat) k = ([], []) := by
  cases k <;> rfl

theorem breakLines_zero (t : List Nat) : breakLines t 0 = ([], t) := by
  cases t <;> rfl

theorem wrap64_eq {n : Int} (h1 : -(2 ^ 63) ≤ n) (h2 : n ≤ 2 ^ 63 - 1) :
    wrap64 n = n := by
  rw [wrap64, Int.emod_eq_of_lt (by omega) (by omega)]
  ring

theorem fl2_break (x : List Nat) (e : Int) (he : e ≤ 2 ^ 63) :
    fl2 x e = (breakLines x e.toNat).1 := by
  induction x generalizing e with
  | nil =>
    rw [fl2, breakLines_nil]
  | cons b t ih =>
    rw [fl2]
    by_cases he0 : e ≤ 0
    · rw [if_pos he0, Int.toNat_eq_zero.mpr he0, breakLines_zero]
    · rw [if_neg he0]
      obtain ⟨k, hk⟩ : ∃ k, e.toNat = k + 1 := ⟨e.toNat - 1, by omega⟩
      rw [hk, breakLines]
      by_cases hb : b = 10
      · have hw : wrap64 (e - 1) = e - 1 := wrap64_eq (by omega) (by omega)
        have h1 : (e - 1).toNat = k := by omega
        rw [if_pos hb, if_pos hb, hw, ih (e - 1) (by omega), h1]
      · rw [if_neg hb, if_neg hb, ih e he, hk]

theorem fl1_break (x : List Nat) (s e : Int) (hs64 : s ≤ 2 ^ 63)
    (he64 : e ≤ 2 ^ 63)
    (hund : -(2 ^ 63) + min (s.toNat : Int) (x.count 10 : Int) ≤ e) :
    fl1 x s e =
      ((breakLines x s.toNat).2, e - min (s.toNat : Int) (x.count 10 : Int)) := by
  induction x generalizing s e with
  | nil =>
    rw [fl1, breakLines_nil]
    refine Prod.ext rfl ?_
    simp only [List.count_nil, Nat.cast_zero]
    omega
  | cons b t ih =>
    rw [fl1]
    by_cases hs : s ≤ 0
    · rw [if_pos hs, Int.toNat_eq_zero.mpr hs, breakLines_zero]
      refine Prod.ext rfl ?_
      omega
    · rw [if_neg hs]
      obtain ⟨k, hk⟩ : ∃ k, s.toNat = k + 1 := ⟨s.toNat - 1, by omega⟩
      rw [hk, breakLines]
      by_cases hb : b = 10
      · have h1 : (s - 1).toNat = k := by omega
        have hcnt : (b :: t).count 10 = t.count 10 + 1 := by
          rw [List.count_cons]
          simp [hb]
        have hw1 : wrap64 (s - 1) = s - 1 := wrap64_eq (by omega) (by omega)
        have hw2 : wrap64 (e - 1) = e - 1 := wrap64_eq (by omega) (by omega)
        rw [if_pos hb, if_pos hb, hw1, hw2,
          ih (s - 1) (e - 1) (by omega) (by omega) (by omega), h1]
        refine Prod.ext rfl ?_
        rw [hcnt]
        push_cast
        omega
      · have hcnt : (b :: t).count 10 = t.count 10 := by
          rw [List.count_cons]
          simp [hb]
        rw [if_neg hb, if_neg hb, ih s e hs64 he64 (by omega)]
        rw [hcnt, hk]

theorem dropLast_drop_eq {α : Type} (L : List α) (c : Nat) :
    (L.drop c).dropLast = L.dropLast.drop c := by
  rw [List.dropLast_eq_take, List.dropLast_eq_take, List.drop_take, List.length_drop]
  congr 1
  omega

theorem findLines_break (x : List Nat) (s e : Int)
    (hs1 : -(2 ^ 63) + 1 ≤ s) (hs2 : s ≤ 2 ^ 63) (he64 : e ≤ 2 ^ 63)
    (hund : -(2 ^ 63) + min (((s - 1).toNat : Nat) : Int) (x.count 10 : Int) ≤ e) :
    findLines x s e =
      (breakLines (breakLines x (s - 1).toNat).2
        (e - min (((s - 1).toNat : Nat) : Int) (x.count 10 : Int)).toNat).1 := by
  rw [findLines]
  have hw : wrap64 (s - 1) = s - 1 := wrap64_eq (by omega) (by omega)
  rw [hw, fl1_break x (s - 1) e (by omega) he64 hund, fl2_break _ _ (by omega)]

theorem findLines_lines (x : List Nat) (n m : Nat) (h1 : 1 ≤ n) (h2 : n ≤ m)
    (h3 : m ≤ (splitLines x).length) (h4 : m ≤ 2 ^ 63 - 1) :
    findLines x (n : Int) (m : Int) =
      (((splitLines x).drop (n - 1)).take (m - n + 1)).flatten := by
  have hcnt := count_splitLines_ge x
  have hn1 : (((n : Int) - 1).toNat) = n - 1 := by omega
  have hmin : min (((n - 1 : Nat) : Nat) : Int) (x.count 10 : Int) = ((n - 1 : Nat) : Int) := by
    apply min_eq_left
    have : ((n : Int)) ≤ (splitLines x).length := by
      have := h2.trans h3
      omega
    omega
  rw [findLines_break x (n : Int) (m : Int) (by omega) (by omega) (by omega)
    (by omega), hn1, hmin]
  have hx : x = (splitLines x).flatten ++ [] := by
    rw [List.append_nil, flatten_splitLines]
  have hstep1 : breakLines x (n - 1) =
      (((splitLines x).take (n - 1)).flatten,
        ((splitLines x).drop (n - 1)).flatten) := by
    conv_lhs => rw [hx]
    have htake : (splitLines x).take (splitLines x).length = splitLines x := List.take_length _
    conv_lhs => rw [← htake]
    rw [break_take_flatten (splitLines_dropLast_proper x) (splitLines_mem x) []
      (by omega) le_rfl (fun _ => rfl)]
    have : ((splitLines x).drop (n - 1)).take ((splitLines x).length - (n - 1)) =
        (splitLines x).drop (n - 1) := by
      apply List.take_of_length_le
      rw [List.length_drop]
    rw [this, List.append_nil]
  rw [hstep1]
  have hk : ((m : Int) - ((n - 1 : Nat) : Int)).toNat = m - n + 1 := by omega
  rw [hk]
  set M := (splitLines x).drop (n - 1) with hM
  have hdpM : ∀ l ∈ M.dropLast, Proper l := by
    intro l hl
    rw [hM, dropLast_drop_eq] at hl
    exact splitLines_dropLast_proper x l (List.drop_subset _ _ hl)
  have hallM : ∀ l ∈ M, Proper l ∨ OpenLine l := fun l hl =>
    splitLines_mem x l (List.drop_subset _ _ hl)
  have hMx : M.flatten = (M.take M.length).flatten ++ [] := by
    rw [List.take_length, List.append_nil]
  conv_lhs => rw [hMx]
  rw [break_take_flatten hdpM hallM []
    (by rw [hM, List.length_drop]; omega) le_rfl (fun _ => rfl)]

theorem validFrom_end {oldL newL : List (List Nat)} {b j' : Nat} {hs : List Hunk}
    (hb : 1 ≤ b ∨ 1 ≤ j') (hbl : oldL.length ≤ b)
    (hv : validFrom oldL newL b j' hs = true) :
    hs = [] ∧ newL.drop j' = [] := by
  cases hs with
  | nil =>
    refine ⟨rfl, ?_⟩
    rw [validFrom, decide_eq_true_eq] at hv
    rw [← hv]
    exact List.drop_eq_nil_of_le hbl
  | cons h hs =>
    exfalso
    obtain ⟨kind, os, oe, ns, ne⟩ := h
    cases kind
    · simp only [validFrom] at hv
      rw [Bool.and_eq_true, decide_eq_true_eq] at hv
      obtain ⟨⟨h1, h2, _, _, _, h6, _⟩, _⟩ := hv
      rcases h6 with h6 | h6
      · omega
      · rcases hb with hb | hb <;> omega
    · simp only [validFrom] at hv
      rw [Bool.and_eq_true, decide_eq_true_eq] at hv
      obtain ⟨⟨h1, h2, h3, _⟩, _⟩ := hv
      omega
    · simp only [validFrom] at hv
      rw [Bool.and_eq_true, decide_eq_true_eq] at hv
      obtain ⟨⟨h1, h2, h3, _⟩, _⟩ := hv
      omega

theorem foldr_hunks_valid (old new : List Nat)
    (hN63 : (splitLines new).length ≤ 2 ^ 63 - 1) (hs : List Hunk) :
    ∀ (i j : Nat),
      validFrom (splitLines old) (splitLines new) i j hs = true →
      hs.foldr (fun h d => applyOp d (toOp new h)) old =
        ((splitLines old).take i).flatten ++ ((splitLines new).drop j).flatten := by
  induction hs with
  | nil =>
    intro i j hv
    rw [validFrom, decide_eq_true_eq] at hv
    rw [List.foldr_nil]
    conv_lhs => rw [← flatten_splitLines old,
      ← List.take_append_drop i (splitLines old), List.flatten_append, hv]
  | cons h hs ih =>
    intro i j hv
    set L := splitLines old with hLdef
    set N := splitLines new with hNdef
    have hdp : ∀ l ∈ L.dropLast, Proper l := splitLines_dropLast_proper old
    have hall : ∀ l ∈ L, Proper l ∨ OpenLine l := splitLines_mem old
    obtain ⟨kind, os, oe, ns, ne⟩ := h
    cases kind
    · -- append hunk
      simp only [validFrom] at hv
      rw [Bool.and_eq_true, decide_eq_true_eq] at hv
      obtain ⟨⟨h1, h2, h3, h4, h5, _, h7⟩, hrec⟩ := hv
      rw [List.foldr_cons, ih os ne hrec]
      simp only [toOp, applyOp]
      have hosn : (((os : Nat) : Int)).toNat = os := by omega
      rw [hosn]
      have hS : os = L.length → (N.drop ne).flatten = [] := by
        intro he
        rw [(validFrom_end (Or.inr (by omega)) (le_of_eq he.symm) hrec).2]
        rfl
      have hbrk := break_take_flatten hdp hall (N.drop ne).flatten
        (le_refl os) h2 hS
      rw [hbrk, Nat.sub_self, List.take_zero, List.flatten_nil, List.nil_append]
      have hdata := findLines_lines new ns ne (by omega) h3 h4 (by omega)
      rw [← hNdef] at hdata
      rw [hdata]
      have e1 : L.take os = L.take i ++ (L.drop i).take (os - i) := by
        rw [show os = i + (os - i) by omega, List.take_add]
        congr 2
        omega
      have d1 : N.drop (ns - 1) = (N.drop j).drop (os - i) := by
        rw [List.drop_drop, show j + (os - i) = ns - 1 by omega]
      have d2 : N.drop ne = (N.drop (ns - 1)).drop (ne - ns + 1) := by
        rw [List.drop_drop, show ns - 1 + (ne - ns + 1) = ne by omega]
      have e2 : N.drop j = (N.drop j).take (os - i) ++ N.drop (ns - 1) := by
        rw [d1, List.take_append_drop]
      have e3 : N.drop (ns - 1) = (N.drop (ns - 1)).take (ne - ns + 1) ++ N.drop ne := by
        rw [d2, List.take_append_drop]
      rw [e1, List.flatten_append, h7]
      conv_rhs => rw [e2, List.flatten_append, e3, List.flatten_append]
      simp [List.append_assoc]
    · -- change hunk
      simp only [validFrom] at hv
      rw [Bool.and_eq_true, decide_eq_true_eq] at hv
      obtain ⟨⟨h1, h2, h3, h4, h5, h6, _, h8⟩, hrec⟩ := hv
      rw [List.foldr_cons, ih oe ne hrec]
      simp only [toOp, applyOp]
      have hosn : (((os : Nat) : Int) - 1).toNat = os - 1 := by omega
      have hoen : (((oe : Nat) : Int)).toNat = oe := by omega
      rw [hosn, hoen]
      have hS : oe = L.length → (N.drop ne).flatten = [] := by
        intro he
        rw [(validFrom_end (Or.inl (by omega)) (le_of_eq he.symm) hrec).2]
        rfl
      have hbrk1 := break_take_flatten hdp hall (N.drop ne).flatten
        (show os - 1 ≤ oe by omega) h3 hS
      have hbrk2 := break_take_flatten hdp hall (N.drop ne).flatten
        (le_refl oe) h3 hS
      rw [hbrk1, hbrk2, Nat.sub_self, List.take_zero, List.flatten_nil,
        List.nil_append]
      have hdata := findLines_lines new ns ne (by omega) h4 h5 (by omega)
      rw [← hNdef] at hdata
      rw [hdata]
      have e1 : L.take (os - 1) = L.take i ++ (L.drop i).take (os - i - 1) := by
        rw [show os - 1 = i + (os - i - 1) by omega, List.take_add]
      have d1 : N.drop (ns - 1) = (N.drop j).drop (os - i - 1) := by
        rw [List.drop_drop, show j + (os - i - 1) = ns - 1 by omega]
      have d2 : N.drop ne = (N.drop (ns - 1)).drop (ne - ns + 1) := by
        rw [List.drop_drop, show ns - 1 + (ne - ns + 1) = ne by omega]
      have e2 : N.drop j = (N.drop j).take (os - i - 1) ++ N.drop (ns - 1) := by
        rw [d1, List.take_append_drop]
      have e3 : N.drop (ns - 1) = (N.drop (ns - 1)).take (ne - ns + 1) ++ N.drop ne := by
        rw [d2, List.take_append_drop]
      rw [e1, List.flatten_append, h8]
      conv_rhs => rw [e2, List.flatten_append, e3, List.flatten_append]
      simp [List.append_assoc]
    · -- delete hunk
      simp only [validFrom] at hv
      rw [Bool.and_eq_true, decide_eq_true_eq] at hv
      obtain ⟨⟨h1, h2, h3, h4, h5, _, _, h8⟩, hrec⟩ := hv
      rw [List.foldr_cons, ih oe ns hrec]
      simp only [toOp, applyOp]
      have hosn : (((os : Nat) : Int) - 1).toNat = os - 1 := by omega
      have hoen : (((oe : Nat) : Int)).toNat = oe := by omega
      rw [hosn, hoen]
      have hS : oe = L.length → (N.drop ns).flatten = [] := by
        intro he
        rw [(validFrom_end (Or.inl (by omega)) (le_of_eq he.symm) hrec).2]
        rfl
      have hbrk1 := break_take_flatten hdp hall (N.drop ns).flatten
        (show os - 1 ≤ oe by omega) h3 hS
      have hbrk2 := break_take_flatten hdp hall (N.drop ns).flatten
        (le_refl oe) h3 hS
      rw [hbrk1, hbrk2, Nat.sub_self, List.take_zero, List.flatten_nil,
        List.nil_append]
      have e1 : L.take (os - 1) = L.take i ++ (L.drop i).take (os - i - 1) := by
        rw [show os - 1 = i + (os - i - 1) by omega, List.take_add]
      have d1 : N.drop ns = (N.drop j).drop (os - i - 1) := by
        rw [List.drop_drop, show j + (os - i - 1) = ns by omega]
      have e2 : N.drop j = (N.drop j).take (os - i - 1) ++ N.drop ns := by
        rw [d1, List.take_append_drop]
      rw [e1, List.flatten_append, h8]
      conv_rhs => rw [e2, List.flatten_append]
      simp [List.append_assoc]

/-- C1, as written, fails on the code: `9 diff` describes a deletion of
the first line of the file by the hunk `1d0` (old span `1,1`, new address
`0`), a correct diff of `"a\nb\n"` against `"b\n"`; the program's
`newStart == 0` check (main.go:160-164) skips that hunk, so zero
operations are produced and the document is left unchanged, not equal to
the new snapshot. -/
theorem c1_roundtrip_cex :
    validDiff [97, 10, 98, 10] [98, 10] [⟨HKind.d, 1, 1, 0, 0⟩] = true ∧
      applyOps [97, 10, 98, 10]
        (hunkOps [98, 10] [⟨HKind.d, 1, 1, 0, 0⟩]) ≠ [98, 10] := by
  decide

theorem splitLines_length_le (x : List Nat) :
    (splitLines x).length ≤ x.length := by
  induction x with
  | nil => exact le_rfl
  | cons b t ih =>
    rw [splitLines_cons_eq]
    by_cases hb : b = 10
    · rw [if_pos hb]
      simpa using ih
    · rw [if_neg hb]
      cases h : splitLines t with
      | nil => simp
      | cons l ls =>
        rw [h] at ih
        simp only [List.length_cons] at ih ⊢
        omega

/-- C1 (amended): for the edit operations produced from a correct diff of
`old` against `new`, applying them in the returned (descending) order to a
document whose content equals `old` reproduces the `new` snapshot byte for
byte, provided every hunk of the diff has `oldStart ≠ 0` and
`newStart ≠ 0` (i.e. the diff contains no insertion before line 1 and no
deletion whose new-file address is 0; the program skips such hunks) and
the new snapshot is within Go's slice bound of fewer than `2^63` bytes
(so the int64 line addresses fed to `findLines` cannot wrap). -/
theorem c1_roundtrip (old new : List Nat) (hs : List Hunk)
    (hsize : new.length < 2 ^ 63)
    (hv : validDiff old new hs = true)
    (hpos : ∀ h ∈ hs, h.os ≠ 0 ∧ h.ns ≠ 0) :
    applyOps old (hunkOps new hs) = new := by
  have hN63 : (splitLines new).length ≤ 2 ^ 63 - 1 := by
    have := splitLines_length_le new
    omega
  rw [validDiff] at hv
  have hfilter : hs.filter (fun h => !(h.os == 0 || h.ns == 0)) = hs := by
    apply List.filter_eq_self.mpr
    intro h hh
    have hp := hpos h hh
    simp [hp.1, hp.2]
  rw [applyOps, hunkOps, hfilter, List.foldl_reverse, List.foldr_map]
  rw [foldr_hunks_valid old new hN63 hs 0 0 hv]
  simp [flatten_splitLines]

/-- Witness for C1: the one-hunk diff `2c2` of `"a\nb\nc\n"` against
`"a\nx\nc\n"` round-trips. -/
theorem c1_roundtrip_witness :
    applyOps [97, 10, 98, 10, 99, 10]
      (hunkOps [97, 10, 120, 10, 99, 10] [⟨HKind.c, 2, 2, 2, 2⟩]) =
      [97, 10, 120, 10, 99, 10] :=
  c1_roundtrip _ _ _ (by decide) (by decide) (by decide)

theorem validFrom_lt {oldL newL : List (List Nat)} :
    ∀ (hs : List Hunk) (i j : Nat), validFrom oldL newL i j hs = true →
      1 ≤ i ∨ 1 ≤ j → ∀ h ∈ hs, i < h.os := by
  intro hs
  induction hs with
  | nil => intro i j _ _ h hh; simp at hh
  | cons h0 hs ih =>
    intro i j hv hij h hh
    obtain ⟨kind, os, oe, ns, ne⟩ := h0
    cases kind
    · simp only [validFrom] at hv
      rw [Bool.and_eq_true, decide_eq_true_eq] at hv
      obtain ⟨⟨h1, h2, h3, h4, h5, h6, _⟩, hrec⟩ := hv
      have hlt : i < os := by
        rcases h6 with h6 | h6
        · exact h6
        · rcases hij with hij | hij <;> omega
      rcases List.mem_cons.mp hh with rfl | hh
      · exact hlt
      · have := ih os ne hrec (Or.inr (by omega)) h hh
        omega
    · simp only [validFrom] at hv
      rw [Bool.and_eq_true, decide_eq_true_eq] at hv
      obtain ⟨⟨h1, h2, h3, _⟩, hrec⟩ := hv
      rcases List.mem_cons.mp hh with rfl | hh
      · exact h1
      · have := ih oe ne hrec (Or.inl (by omega)) h hh
        omega
    · simp only [validFrom] at hv
      rw [Bool.and_eq_true, decide_eq_true_eq] at hv
      obtain ⟨⟨h1, h2, h3, _⟩, hrec⟩ := hv
      rcases List.mem_cons.mp hh with rfl | hh
      · exact h1
      · have := ih oe ns hrec (Or.inl (by omega)) h hh
        omega

theorem validFrom_pairwise {oldL newL : List (List Nat)} :
    ∀ (hs : List Hunk) (i j : Nat), validFrom oldL newL i j hs = true →
      List.Pairwise (fun h h2 => h.os < h2.os) hs := by
  intro hs
  induction hs with
  | nil => intro i j _; exact List.Pairwise.nil
  | cons h0 hs ih =>
    intro i j hv
    obtain ⟨kind, os, oe, ns, ne⟩ := h0
    cases kind
    · simp only [validFrom] at hv
      rw [Bool.and_eq_true, decide_eq_true_eq] at hv
      obtain ⟨⟨h1, h2, h3, h4, h5, h6, _⟩, hrec⟩ := hv
      exact List.Pairwise.cons
        (fun h hh => validFrom_lt hs os ne hrec (Or.inr (by omega)) h hh)
        (ih os ne hrec)
    · simp only [validFrom] at hv
      rw [Bool.and_eq_true, decide_eq_true_eq] at hv
      obtain ⟨⟨h1, h2, h3, _⟩, hrec⟩ := hv
      exact List.Pairwise.cons
        (fun h hh => by
          have h9 := validFrom_lt hs oe ne hrec (Or.inl (by omega)) h hh
          show os < h.os
          omega)
        (ih oe ne hrec)
    · simp only [validFrom] at hv
      rw [Bool.and_eq_true, decide_eq_true_eq] at hv
      obtain ⟨⟨h1, h2, h3, _⟩, hrec⟩ := hv
      exact List.Pairwise.cons
        (fun h hh => by
          have h9 := validFrom_lt hs oe ns hrec (Or.inl (by omega)) h hh
          show os < h.os
          omega)
        (ih oe ns hrec)

theorem opStart_toOp (new : List Nat) (h : Hunk) :
    opStart (toOp new h) = (h.os : Int) := by
  obtain ⟨kind, os, oe, ns, ne⟩ := h
  cases kind <;> rfl

/-- C3: the operations derived from one correct diff are emitted — and
hence applied — in strictly descending order of their old-document start
line: `hunkOps` reverses the ascending hunk order of the diff (the loop
walks the diff's lines from the last to the first), so for every pair of
emitted operations the one applied earlier has the strictly higher old
start address. -/
theorem c3_order_invariant (oldL newL : List (List Nat)) (new : List Nat)
    (hs : List Hunk) (hv : validFrom oldL newL 0 0 hs = true) :
    List.Pairwise (fun o o2 => opStart o2 < opStart o) (hunkOps new hs) := by
  have hp := validFrom_pairwise hs 0 0 hv
  have hp2 : List.Pairwise (fun h h2 => h.os < h2.os)
      (hs.filter fun h => !(h.os == 0 || h.ns == 0)) :=
    hp.sublist (List.filter_sublist hs)
  rw [hunkOps, List.pairwise_reverse]
  rw [List.pairwise_map]
  refine hp2.imp ?_
  intro a b hab
  rw [opStart_toOp, opStart_toOp]
  exact_mod_cast hab

/-- Witness for C3: the two-hunk diff `1c1` / `3c3` yields operations with
strictly descending old start lines. -/
theorem c3_order_invariant_witness :
    List.Pairwise (fun o o2 => opStart o2 < opStart o)
      (hunkOps [120, 10, 98, 10, 121, 10, 100, 10]
        [⟨HKind.c, 1, 1, 1, 1⟩, ⟨HKind.c, 3, 3, 3, 3⟩]) :=
  c3_order_invariant
    (splitLines [97, 10, 98, 10, 99, 10, 100, 10])
    (splitLines [120, 10, 98, 10, 121, 10, 100, 10]) _ _ (by decide)

theorem planLoop_skip (new : List Nat) (L : List Char) (j : Nat) (k : Char)
    (hfind : findHunkKind L = some (j, k))
    (hdeg : (parseSpan (L.take j)).1 = 0 ∨ (parseSpan (L.drop (j + 1))).1 = 0) :
    ∀ pre post, planLoop new (pre ++ L :: post) = planLoop new (pre ++ post) := by
  intro pre post
  induction pre with
  | nil =>
    simp only [List.nil_append]
    cases L with
    | nil => simp [findHunkKind] at hfind
    | cons c cs =>
      simp only [planLoop]
      by_cases hc : c = '<' ∨ c = '-' ∨ c = '>'
      · rw [if_pos hc]
      · rw [if_neg hc, hfind]
        simp only
        rw [if_pos hdeg]
  | cons p pre ih =>
    simp only [List.cons_append] at ih ⊢
    cases p with
    | nil =>
      simp only [planLoop]
      exact ih
    | cons c cs =>
      simp only [planLoop]
      by_cases hc : c = '<' ∨ c = '-' ∨ c = '>'
      · rw [if_pos hc, if_pos hc]
        exact ih
      · rw [if_neg hc, if_neg hc]
        cases hfk : findHunkKind (c :: cs) with
        | none => rfl
        | some jk =>
          simp only
          by_cases hz : (parseSpan ((c :: cs).take jk.1)).1 = 0 ∨
              (parseSpan ((c :: cs).drop (jk.1 + 1))).1 = 0
          · rw [if_pos hz, if_pos hz]
            exact ih
          · rw [if_neg hz, if_neg hz, ih]

theorem planLoop_abort (new : List Nat) (L : List Char)
    (hhead : ∀ c cs, L = c :: cs → ¬(c = '<' ∨ c = '-' ∨ c = '>'))
    (hne : L ≠ []) (hfind : findHunkKind L = none) :
    ∀ pre post, planLoop new (pre ++ L :: post) = planLoop new pre := by
  intro pre post
  induction pre with
  | nil =>
    simp only [List.nil_append]
    cases L with
    | nil => exact absurd rfl hne
    | cons c cs =>
      simp only [planLoop]
      rw [if_neg (hhead c cs rfl), hfind]
  | cons p pre ih =>
    simp only [List.cons_append] at ih ⊢
    cases p with
    | nil =>
      simp only [planLoop]
      exact ih
    | cons c cs =>
      simp only [planLoop]
      by_cases hc : c = '<' ∨ c = '-' ∨ c = '>'
      · rw [if_pos hc, if_pos hc]
        exact ih
      · rw [if_neg hc, if_neg hc]
        cases hfk : findHunkKind (c :: cs) with
        | none => rfl
        | some jk =>
          simp only
          by_cases hz : (parseSpan ((c :: cs).take jk.1)).1 = 0 ∨
              (parseSpan ((c :: cs).drop (jk.1 + 1))).1 = 0
          · rw [if_pos hz, if_pos hz]
            exact ih
          · rw [if_neg hz, if_neg hz, ih]

/-- C6, as written, fails on the code in its logging conjunct: for the
hunk header `1d0` — the form a real diff emits for deleting the leading
line — both spans parse successfully (`Atoi("0")` does not fail), so
neither `parseSpan` call logs anything, and the `continue` of
main.go:162-163 is silent: the degenerate hunk is skipped with no log
line at all. -/
theorem c6_degenerate_cex :
    findHunkKind ['1', 'd', '0'] = some (1, 'd') ∧
      (parseSpan (['1', 'd', '0'].drop 2)).1 = 0 ∧
      parseSpanLogs (['1', 'd', '0'].take 1) = false ∧
      parseSpanLogs (['1', 'd', '0'].drop 2) = false := by
  decide

/-- C6 (amended): a diff hunk whose parsed spans yield `oldStart == 0` or
`newStart == 0` is skipped rather than applied — the operations planned
from the diff are exactly those of the same diff without that hunk line,
so all remaining hunks are still processed (the `continue` branch of
main.go:160-164).  The skip itself is silent: a log line is produced only
by `parseSpan` on malformed span text, and every logged parse yields the
degenerate `(0, 0)` span (and is then skipped); spans that are literally
`0`, as in the real top-of-file hunks `1d0` and `0a1`, are dropped
without any log. -/
theorem c6_degenerate_skip :
    (∀ (new : List Nat) (dls1 dls2 : List (List Char)) (L : List Char)
        (j : Nat) (k : Char), findHunkKind L = some (j, k) →
      (parseSpan (L.take j)).1 = 0 ∨ (parseSpan (L.drop (j + 1))).1 = 0 →
      planOps new (dls1 ++ L :: dls2) = planOps new (dls1 ++ dls2)) ∧
    ∀ cs : List Char, parseSpanLogs cs = true → parseSpan cs = (0, 0) := by
  constructor
  · intro new dls1 dls2 L j k hfind hdeg
    rw [planOps, planOps]
    have e1 : (dls1 ++ L :: dls2).reverse = dls2.reverse ++ L :: dls1.reverse := by
      simp
    have e2 : (dls1 ++ dls2).reverse = dls2.reverse ++ dls1.reverse := by
      simp
    rw [e1, e2, planLoop_skip new L j k hfind hdeg]
  · intro cs hlog
    rw [parseSpanLogs] at hlog
    rw [parseSpan]
    cases hf : cs.findIdx? (fun c => c = ',') with
    | none =>
      rw [hf] at hlog
      dsimp only at hlog ⊢
      rw [Option.isNone_iff_eq_none] at hlog
      rw [hlog]
    | some i =>
      rw [hf] at hlog
      dsimp only at hlog ⊢
      rcases Bool.or_eq_true_iff.mp hlog with h | h
      · rw [Option.isNone_iff_eq_none] at h
        rw [h]
      · rw [Option.isNone_iff_eq_none] at h
        rw [h]
        cases atoi (cs.take i) <;> rfl

/-- Witness for C6 (amended): the degenerate hunk `0a1` (a top-of-file
insertion) is dropped while the surrounding hunks still plan, and a
logged parse (malformed span text) indeed yields the degenerate span. -/
theorem c6_degenerate_skip_witness :
    planOps [120, 10, 98, 10]
        ([['3', 'c', '3']] ++ ['0', 'a', '1'] :: [['5', 'd', '4']]) =
        planOps [120, 10, 98, 10] ([['3', 'c', '3']] ++ [['5', 'd', '4']]) ∧
      parseSpan ['w'] = (0, 0) :=
  ⟨c6_degenerate_skip.1 _ _ _ _ 1 'a' (by decide) (by decide),
    c6_degenerate_skip.2 ['w'] (by decide)⟩

/-- C7: a diff line that is not an empty line, does not start with the
content markers `<`, `-`, `>`, and contains no `a`/`c`/`d` command letter
cannot be parsed as a hunk header; the loop logs it and breaks
(main.go:152-159), so every hunk at or before that line in the diff is
abandoned and only the lines after it (which the reverse-order loop had
already processed) contribute operations. -/
theorem c7_unparseable_abort (new : List Nat) (dls1 dls2 : List (List Char))
    (L : List Char)
    (hhead : ∀ c cs, L = c :: cs → ¬(c = '<' ∨ c = '-' ∨ c = '>'))
    (hne : L ≠ []) (hfind : findHunkKind L = none) :
    planOps new (dls1 ++ L :: dls2) = planOps new dls2 := by
  rw [planOps, planOps]
  have e1 : (dls1 ++ L :: dls2).reverse = dls2.reverse ++ L :: dls1.reverse := by
    simp
  rw [e1, planLoop_abort new L hhead hne hfind]

/-- Witness for C7: the garbage line `"xy"` aborts the hunks before it. -/
theorem c7_unparseable_abort_witness :
    planOps [120, 10] ([['2', 'c', '2']] ++ ['x', 'y'] :: [['1', 'c', '1']]) =
      planOps [120, 10] [['1', 'c', '1']] :=
  c7_unparseable_abort _ _ _ _
    (by
      intro c cs hx
      injection hx with h1 h2
      rw [← h1]
      decide)
    (by decide) (by decide)

theorem takeThroughBlank_prefix : ∀ L : List (List Nat), takeThroughBlank L <+: L := by
  intro L
  induction L with
  | nil => exact List.prefix_refl _
  | cons l ls ih =>
    rw [takeThroughBlank]
    by_cases hl : l = [10]
    · rw [if_pos hl]
      exact ⟨ls, rfl⟩
    · rw [if_neg hl]
      obtain ⟨t, ht⟩ := ih
      exact ⟨t, by rw [List.cons_append, ht]⟩

theorem readImports_prefix (x : List Nat) : readImports x <+: x := by
  rw [readImports]
  conv_rhs => rw [← flatten_splitLines x]
  obtain ⟨t, ht⟩ := takeThroughBlank_prefix (splitLines x)
  exact ⟨t.flatten, by rw [← List.flatten_append, ht]⟩

/-- C2, as stated, is false: the staleness guard does not cover the
top-of-file region mode.  The `!*dofmt` branch (main.go:97-114) writes its
replacement without ever reading or comparing the live window body: here
the live body (empty) differs from the old snapshot `"x\n\nb\n"`, yet
one edit operation is still produced. -/
theorem c2_staleness_cex :
    ([] : List Nat) ≠ [120, 10, 10, 98, 10] ∧
      reformat false [120, 10, 10, 98, 10] [121, 10, 10, 98, 10] [] [] =
        RAction.region 3 [121, 10, 10] ∧
      appliedEdits
        (reformat false [120, 10, 10, 98, 10] [121, 10, 10, 98, 10] [] []) = 1 := by
  decide

/-- C2 (amended): on the whole-file diff path (`dofmt` set) the live body
is compared against the old snapshot before anything is applied
(main.go:131-139); on mismatch zero edit operations are applied and the
batch is abandoned with a log line (`skipStale`).  The top-of-file region
mode performs no such comparison. -/
theorem c2_staleness (old new latest : List Nat) (dls : List (List Char))
    (h : latest ≠ old) :
    appliedEdits (reformat true old new latest dls) = 0 ∧
      (old ≠ new → reformat true old new latest dls = RAction.skipStale) := by
  rw [reformat]
  by_cases he : old = new
  · rw [if_pos he]
    exact ⟨rfl, fun hne => absurd he hne⟩
  · rw [if_neg he, if_neg (by simp : ¬(true = false)), if_pos h]
    exact ⟨rfl, fun _ => rfl⟩

/-- Witness for C2 (amended): with a modified live body, the diff path
applies nothing and reports the stale skip. -/
theorem c2_staleness_witness :
    appliedEdits (reformat true [97] [98] [99] []) = 0 ∧
      (([97] : List Nat) ≠ [98] →
        reformat true [97] [98] [99] [] = RAction.skipStale) :=
  c2_staleness [97] [98] [99] [] (by decide)

/-- C4: in top-of-file region mode, when the extracted tops are
byte-identical no operation is produced; when they differ exactly one
operation is produced, replacing the range `[0, length(oldTop))` with
`newTop` — and since `oldTop` is a prefix of `old`, that target range lies
entirely within the top region, touching no byte at or after offset
`length(oldTop)`.  (`readImports` is modelled from the spec: the leading
region through the first blank line.) -/
theorem c4_region_mode (old new latest : List Nat) (dls : List (List Char)) :
    (readImports old = readImports new →
        reformat false old new latest dls = RAction.idle) ∧
      (readImports old ≠ readImports new →
        reformat false old new latest dls =
            RAction.region (readImports old).length (readImports new) ∧
          readImports old <+: old) := by
  constructor
  · intro htop
    rw [reformat]
    by_cases he : old = new
    · rw [if_pos he]
    · rw [if_neg he, if_pos rfl]
      show (if readImports old = readImports new then RAction.idle
        else RAction.region (readImports old).length (readImports new)) = _
      rw [if_pos htop]
  · intro htop
    have he : old ≠ new := fun hx => htop (hx ▸ rfl)
    refine ⟨?_, readImports_prefix old⟩
    rw [reformat, if_neg he, if_pos rfl]
    show (if readImports old = readImports new then RAction.idle
      else RAction.region (readImports old).length (readImports new)) = _
    rw [if_neg htop]

/-- Witness for C4: identical tops (`"x\n\n"`) produce no operation even
though the bodies differ; different tops produce exactly the single
top-region replacement. -/
theorem c4_region_mode_witness :
    reformat false [120, 10, 10, 98, 10] [120, 10, 10, 99, 10] [] [] =
        RAction.idle ∧
      (reformat false [120, 10, 10, 98, 10] [121, 10, 10, 98, 10] [] [] =
          RAction.region (readImports [120, 10, 10, 98, 10]).length
            (readImports [121, 10, 10, 98, 10]) ∧
        readImports [120, 10, 10, 98, 10] <+: [120, 10, 10, 98, 10]) :=
  ⟨(c4_region_mode [120, 10, 10, 98, 10] [120, 10, 10, 99, 10] [] []).1
      (by decide),
    (c4_region_mode [120, 10, 10, 98, 10] [121, 10, 10, 98, 10] [] []).2
      (by decide)⟩

/-- C8: a reformat cycle whose formatter output is byte-identical to the
old content silently returns before planning or applying anything
(main.go:93-95), in either mode; correspondingly the empty diff output
(the single empty line `strings.Split` produces) plans zero operations,
the empty hunk list is a correct diff of any document against itself, and
it yields zero operations. -/
theorem c8_idempotence (dofmt : Bool) (old latest nw : List Nat)
    (dls : List (List Char)) (L : List (List Nat)) :
    reformat dofmt old old latest dls = RAction.idle ∧
      planOps nw [[]] = [] ∧
      validFrom L L 0 0 [] = true ∧
      hunkOps nw [] = [] := by
  refine ⟨?_, rfl, ?_, rfl⟩
  · rw [reformat, if_pos rfl]
  · simp [validFrom]

/-- C5, as written, fails on the code: Go's `end--` (main.go:217) wraps
at `-2^63` (int64 two's complement, and `strconv.Atoi` accepts
`-9223372036854775808`), so `findLines("a\nb", 2, -2^63)` skips line 1,
wraps `end` to `2^63 - 1`, and returns `"b"` — not the empty bytes the
claim promises for every `startLine > endLine`. -/
theorem c5_findLines_cex :
    (-(2 ^ 63) : Int) < 2 ∧
      findLines [97, 10, 98] 2 (-(2 ^ 63)) = [98] ∧
      findLines [97, 10, 98] 2 (-(2 ^ 63)) ≠ [] := by
  decide

/-- C5 (amended): `findLines(buffer, start, end)` returns exactly the
literal bytes from the start of line `start` to the start of line
`end + 1` — the buffer's contiguous slice between the two line offsets,
inclusive of line `end`'s trailing newline when present and clamped at
the end of the buffer — for all 1-based `start ≤ end` with `end` in the
int64 range; and it returns empty bytes for `start > end` provided the
wrapping `end--` cannot underflow, i.e. `end` is at least
`(start - 1)` above `-2^63` (both provisos hold for every span an actual
diff produces). -/
theorem c5_findLines_contract :
    (∀ (x : List Nat) (s e : Int), 1 ≤ s → s ≤ e → e ≤ 2 ^ 63 - 1 →
        findLines x s e =
          (x.drop (lineOff x s)).take (lineOff x (e + 1) - lineOff x s)) ∧
      ∀ (x : List Nat) (s e : Int), e < s → s ≤ 2 ^ 63 - 1 →
        -(2 ^ 63) + (((s - 1).toNat : Nat) : Int) ≤ e →
        findLines x s e = [] := by
  constructor
  · intro x s e hs hse he64
    have he1 : ((e + 1 : Int) - 1) = e := by ring
    rw [findLines_break x s e (by omega) (by omega) (by omega) (by omega),
      lineOff, lineOff, he1]
    set a := ((s : Int) - 1).toNat with ha
    by_cases hc : a ≤ x.count 10
    · rw [min_eq_left (by exact_mod_cast hc)]
      set k := ((e : Int) - (a : Int)).toNat with hk
      have hek : e.toNat = a + k := by omega
      have hadd := breakLines_add x a k
      rw [hek, hadd]
      have h1 := breakLines_append_eq x a
      have h2 := breakLines_append_eq (breakLines x a).2 k
      rw [List.length_append]
      have hlen : ((breakLines x a).1).length +
          ((breakLines (breakLines x a).2 k).1).length -
          ((breakLines x a).1).length =
          ((breakLines (breakLines x a).2 k).1).length := by omega
      rw [hlen]
      have hdrop : x.drop ((breakLines x a).1).length = (breakLines x a).2 :=
        calc x.drop ((breakLines x a).1).length
            = ((breakLines x a).1 ++ (breakLines x a).2).drop
                ((breakLines x a).1).length := by rw [h1]
          _ = (breakLines x a).2 := List.drop_left _ _
      have htake : ((breakLines x a).2).take
            ((breakLines (breakLines x a).2 k).1).length =
          (breakLines (breakLines x a).2 k).1 :=
        calc ((breakLines x a).2).take
              ((breakLines (breakLines x a).2 k).1).length
            = ((breakLines (breakLines x a).2 k).1 ++
                  (breakLines (breakLines x a).2 k).2).take
                ((breakLines (breakLines x a).2 k).1).length := by rw [h2]
          _ = (breakLines (breakLines x a).2 k).1 := List.take_left _ _
      rw [hdrop, htake]
    · have hex := breakLines_exhaust x a (by omega)
      rw [hex]
      simp [breakLines_nil]
  · intro x s e hlt hs64 hund
    rw [findLines_break x s e (by omega) (by omega) (by omega) (by omega)]
    set a := ((s : Int) - 1).toNat with ha
    by_cases hc : a ≤ x.count 10
    · rw [min_eq_left (by exact_mod_cast hc)]
      have hz : ((e : Int) - (a : Int)).toNat = 0 := by omega
      rw [hz, breakLines_zero]
    · have hex := breakLines_exhaust x a (by omega)
      rw [hex]
      simp [breakLines_nil]

/-- Witness for C5: lines 2..3 of `"a\nb\nc"` and the empty reversed
span. -/
theorem c5_findLines_contract_witness :
    findLines [97, 10, 98, 10, 99] 2 3 =
        (([97, 10, 98, 10, 99] : List Nat).drop
            (lineOff [97, 10, 98, 10, 99] 2)).take
          (lineOff [97, 10, 98, 10, 99] 4 - lineOff [97, 10, 98, 10, 99] 2) ∧
      findLines [97, 10, 98, 10, 99] 3 2 = [] :=
  ⟨c5_findLines_contract.1 [97, 10, 98, 10, 99] 2 3 (by decide) (by decide)
      (by decide),
    c5_findLines_contract.2 [97, 10, 98, 10, 99] 3 2 (by decide) (by decide)
      (by decide)⟩

theorem fl2_take : ∀ (t : List Nat) (e : Int),
    ∃ k, k ≤ t.length ∧ fl2 t e = t.take k := by
  intro t
  induction t with
  | nil =>
    intro e
    exact ⟨0, le_rfl, by rw [fl2]; rfl⟩
  | cons b t ih =>
    intro e
    by_cases he : e ≤ 0
    · exact ⟨0, by omega, by rw [fl2, if_pos he]; rfl⟩
    · obtain ⟨k, hk, h2⟩ := ih (if b = 10 then wrap64 (e - 1) else e)
      refine ⟨k + 1, by simpa using hk, ?_⟩
      rw [fl2, if_neg he, h2]
      rfl

theorem fl1_drop : ∀ (t : List Nat) (s e : Int),
    ∃ k, k ≤ t.length ∧ (fl1 t s e).1 = t.drop k := by
  intro t
  induction t with
  | nil =>
    intro s e
    exact ⟨0, le_rfl, by rw [fl1]; rfl⟩
  | cons b t ih =>
    intro s e
    by_cases hs : s ≤ 0
    · exact ⟨0, by omega, by rw [fl1, if_pos hs]; rfl⟩
    · by_cases hb : b = 10
      · obtain ⟨k, hk, h2⟩ := ih (wrap64 (s - 1)) (wrap64 (e - 1))
        refine ⟨k + 1, by simpa using hk, ?_⟩
        rw [fl1, if_neg hs, if_pos hb, h2]
        rfl
      · obtain ⟨k, hk, h2⟩ := ih s e
        refine ⟨k + 1, by simpa using hk, ?_⟩
        rw [fl1, if_neg hs, if_neg hb, h2]
        rfl

/-- C10: `findLines` is total and in-bounds for every buffer and every
pair of integer arguments, including zero, negative, reversed and
oversized line numbers (and regardless of any `int` wrap-around of the
loop counters): the first loop only discards a prefix and the second only
keeps a prefix of the rest, so the result is always the contiguous slice
of the input between two indices `0 ≤ i ≤ j ≤ length`. -/
theorem c10_findLines_total (x : List Nat) (s e : Int) :
    ∃ i j, i ≤ j ∧ j ≤ x.length ∧
      findLines x s e = (x.drop i).take (j - i) := by
  obtain ⟨i, hi, h1⟩ := fl1_drop x (wrap64 (s - 1)) e
  obtain ⟨m, hm, h2⟩ :=
    fl2_take (fl1 x (wrap64 (s - 1)) e).1 (fl1 x (wrap64 (s - 1)) e).2
  refine ⟨i, i + m, by omega, ?_, ?_⟩
  · have hlen : ((fl1 x (wrap64 (s - 1)) e).1).length = x.length - i := by
      rw [h1, List.length_drop]
    omega
  · have hj : i + m - i = m := by omega
    rw [hj, findLines, ← h1]
    exact h2

theorem findIdx_comma_none {cs : List Char} (h : (',') ∉ cs) :
    cs.findIdx? (fun c => c = ',') = none := by
  induction cs with
  | nil => rfl
  | cons c cs ih =>
    have hc : ¬c = ',' := fun hx => h (hx ▸ List.mem_cons_self _ _)
    have ih2 := ih (fun hx => h (List.mem_cons_of_mem _ hx))
    rw [List.findIdx?_cons]
    simp [hc, ih2]

theorem findIdx_comma_append {u : List Char} (v : List Char) (h : (',') ∉ u) :
    (u ++ ',' :: v).findIdx? (fun c => c = ',') = some u.length := by
  induction u with
  | nil => simp [List.findIdx?_cons]
  | cons c u ih =>
    have hc : ¬c = ',' := fun hx => h (hx ▸ List.mem_cons_self _ _)
    have ih2 := ih (fun hx => h (List.mem_cons_of_mem _ hx))
    rw [List.cons_append, List.findIdx?_cons]
    simp [hc, ih2]

theorem drop_length_succ_append (u v : List Char) (c : Char) :
    (u ++ c :: v).drop (u.length + 1) = v := by
  have h1 : u ++ c :: v = (u ++ [c]) ++ v := by simp
  have h2 : u.length + 1 = (u ++ [c]).length := by simp
  rw [h1, h2]
  exact List.drop_left _ _

/-- C9: `parseSpan` returns `(n, n)` when the whole text parses as the
integer `n` (Go `strconv.Atoi`, modelled by `atoi`); `(a, b)` when the
text splits at its first comma into two parseable integers; and `(0, 0)`
in every other case — and since a `0` start triggers the degenerate-span
skip (main.go:160-164), a hunk line whose span text is malformed is
silently dropped while the remaining hunks of the diff are still
processed. -/
theorem c9_parseSpan_semantics :
    (∀ (cs : List Char) (n : Int), (',') ∉ cs → atoi cs = some n →
        parseSpan cs = (n, n)) ∧
      (∀ cs : List Char, (',') ∉ cs → atoi cs = none →
        parseSpan cs = (0, 0)) ∧
      (∀ (u v : List Char) (a b : Int), (',') ∉ u → atoi u = some a →
        atoi v = some b → parseSpan (u ++ ',' :: v) = (a, b)) ∧
      (∀ u v : List Char, (',') ∉ u → (atoi u = none ∨ atoi v = none) →
        parseSpan (u ++ ',' :: v) = (0, 0)) ∧
      (∀ (new : List Nat) (dls1 dls2 : List (List Char)) (L : List Char)
          (j : Nat) (k : Char), findHunkKind L = some (j, k) →
        parseSpan (L.take j) = (0, 0) ∨ parseSpan (L.drop (j + 1)) = (0, 0) →
        planOps new (dls1 ++ L :: dls2) = planOps new (dls1 ++ dls2)) := by
  refine ⟨?_, ?_, ?_, ?_, ?_⟩
  · intro cs n hmem hatoi
    rw [parseSpan, findIdx_comma_none hmem, hatoi]
  · intro cs hmem hatoi
    rw [parseSpan, findIdx_comma_none hmem, hatoi]
  · intro u v a b hmem hu hv
    rw [parseSpan, findIdx_comma_append v hmem]
    simp only [List.take_left, drop_length_succ_append, hu, hv]
  · intro u v hmem hor
    rw [parseSpan, findIdx_comma_append v hmem]
    simp only [List.take_left, drop_length_succ_append]
    rcases hor with hu | hu
    · rw [hu]
    · rw [hu]
      cases atoi u <;> rfl
  · intro new dls1 dls2 L j k hfind hz
    have hdeg : (parseSpan (L.take j)).1 = 0 ∨ (parseSpan (L.drop (j + 1))).1 = 0 := by
      rcases hz with hz | hz
      · exact Or.inl (by rw [hz])
      · exact Or.inr (by rw [hz])
    rw [planOps, planOps]
    have e1 : (dls1 ++ L :: dls2).reverse = dls2.reverse ++ L :: dls1.reverse := by
      simp
    have e2 : (dls1 ++ dls2).reverse = dls2.reverse ++ dls1.reverse := by
      simp
    rw [e1, e2, planLoop_skip new L j k hfind hdeg]

/-- Witness for C9: a plain number, garbage, a comma pair, a half-garbage
comma pair, and the silent drop of the malformed header `"zza4"`. -/
theorem c9_parseSpan_semantics_witness :
    parseSpan ['4', '2'] = (42, 42) ∧
      parseSpan ['q'] = (0, 0) ∧
      parseSpan (['3'] ++ ',' :: ['7']) = (3, 7) ∧
      parseSpan (['3'] ++ ',' :: ['q']) = (0, 0) ∧
      planOps [9] ([['1', 'c', '1']] ++ ['z', 'z', 'a', '4'] :: []) =
        planOps [9] ([['1', 'c', '1']] ++ []) :=
  ⟨c9_parseSpan_semantics.1 ['4', '2'] 42 (by decide) (by decide),
    c9_parseSpan_semantics.2.1 ['q'] (by decide) (by decide),
    c9_parseSpan_semantics.2.2.1 ['3'] ['7'] 3 7 (by decide) (by decide)
      (by decide),
    c9_parseSpan_semantics.2.2.2.1 ['3'] ['q'] (by decide)
      (Or.inr (by decide)),
    c9_parseSpan_semantics.2.2.2.2 [9] [['1', 'c', '1']] [] ['z', 'z', 'a', '4']
      2 'a' (by decide) (Or.inl (by decide))⟩

end Acmefmt
